import Mathlib

/-!
Verification of the ParlaMint-RO tense-usage statistics pipeline
(`src/analysis/analyze-tense-usage.py`).

Shallow embedding conventions:
* Python strings are `List Char` (`Str`); `str.count`, `str.strip`, `re.sub`
  and `datetime.strptime` are translated as executable Lean functions below.
* An lxml element tree is the mutual inductive `Xml`/`XmlList` (tag,
  attributes, text, children).  The script sets every `tail` to `None` and
  parses with `remove_blank_text=True`, so per-node `text` plus recursive
  child text models `''.join(u.itertext())`.
* Python dicts are association lists with insertion-order preserving
  update (`upsert`) and key lookup (`alookup`); Python sets are modelled
  as duplicate-free lists built by `sinsert` (contents are exact, the
  iteration order of a CPython set is abstracted as insertion order;
  order-sensitive statements quantify over permutations instead).
* Exceptions are `Option`: `none` is an uncaught fatal error.  The joblib
  `Parallel` driver evaluates every job and surfaces any job's exception,
  so it is `optMapM`, which returns `none` whenever any job fails and the
  in-order list of results otherwise.
-/

abbrev Str := List Char

def strL (s : String) : Str := s.toList

/-- Python `\s` (the characters the `re` module and `str.strip` treat as
whitespace, restricted to the ASCII range that occurs in the data). -/
def isPySpace (c : Char) : Bool :=
  c == ' ' || c == '\t' || c == '\n' || c == '\r' || c == '\x0b' || c == '\x0c'

/-- ASCII lower-casing, used to model `re.IGNORECASE` on the fixed
ASCII pronoun markers. -/
def charLower (c : Char) : Char :=
  if 'A' ≤ c ∧ c ≤ 'Z' then Char.ofNat (c.toNat + 32) else c

/-- Python `str.strip()`: drop leading and trailing whitespace. -/
def pyStrip (s : Str) : Str :=
  ((s.dropWhile isPySpace).reverse.dropWhile isPySpace).reverse

/-- Python `str.split(sep)` for a single-character separator (empty pieces
are kept, `""` splits to `[""]`). -/
def splitOnChar (sep : Char) : Str → List Str
  | [] => [[]]
  | c :: cs =>
    if c = sep then [] :: splitOnChar sep cs
    else
      match splitOnChar sep cs with
      | [] => [[c]]
      | l :: ls => (c :: l) :: ls

/-- Python `needle in hay` for strings: substring containment. -/
def strContains (needle : Str) : Str → Bool
  | [] => needle.isEmpty
  | c :: t => needle.isPrefixOf (c :: t) || strContains needle t

/-- Scanner for `str.count` with a nonempty pattern: left-to-right,
counting non-overlapping occurrences.  The `Nat` argument is the number of
characters still to skip after a counted match (`len(pat) - 1` beyond the
first one). -/
def pyCountAux (pat : Str) : Str → Nat → Nat
  | [], _ => 0
  | _ :: cs, Nat.succ k => pyCountAux pat cs k
  | c :: cs, 0 =>
    if pat.isPrefixOf (c :: cs) then 1 + pyCountAux pat cs (pat.length - 1)
    else pyCountAux pat cs 0

/-- Python `text.count(pat)`: non-overlapping left-to-right substring
count; an empty pattern is counted `len(text) + 1` times, exactly as in
CPython. -/
def pyCount (pat text : Str) : Nat :=
  if pat = [] then text.length + 1 else pyCountAux pat text 0

/-! ### The pronoun-stripping regex of `get_future_forms`

The script applies
`re.sub(r"^\s*(eu|tu|el\/ea|noi|voi|ei\/ele)\s", '', x, 0, re.IGNORECASE | re.MULTILINE)`
to every cell of the `Viitor` column and then strips the result.  The
model below reproduces `re.sub` for this fixed pattern: a match can only
start where `^` holds (offset 0 or right after a newline), consumes a
maximal whitespace run, one pronoun alternative (tried in order,
case-insensitively), and exactly one further whitespace character; all
matches are removed, scanning resumes after each match. -/

def PRONOUNS : List Str :=
  [strL "eu", strL "tu", strL "el/ea", strL "noi", strL "voi", strL "ei/ele"]

/-- Match one of the pronoun alternatives (in order, case-insensitively)
as a prefix of `cs`; returns the matched length.  No pronoun is a prefix
of another, so at most one alternative can match. -/
def matchPronList : List Str → Str → Option Nat
  | [], _ => none
  | p :: ps, cs =>
    if (cs.take p.length).map charLower = p then some p.length
    else matchPronList ps cs

def matchPron (cs : Str) : Option Nat := matchPronList PRONOUNS cs

/-- Attempt the regex at a `^` position: `\s*` (greedy, deterministic
because no pronoun starts with whitespace), one pronoun, one `\s`.
Returns the total matched length and whether the final consumed character
is a newline (which makes the position after the match a `^` position
again). -/
def tryPronMatch (cs : Str) : Option (Nat × Bool) :=
  let w := (cs.takeWhile isPySpace).length
  let rest := cs.drop w
  match matchPron rest with
  | none => none
  | some k =>
    match (rest.drop k).head? with
    | some c => if isPySpace c then some (w + k + 1, c == '\n') else none
    | none => none

/-- Scanner for `re.sub` with the pronoun pattern.  The `Nat` argument is
the number of matched characters still to delete, the `Bool` whether the
position reached after deleting them starts a line. -/
def pySubAux : Str → Nat → Bool → Str
  | [], _, _ => []
  | _ :: cs, Nat.succ k, b => pySubAux cs k b
  | c :: cs, 0, b =>
    if b then
      match tryPronMatch (c :: cs) with
      | some (m, b2) => pySubAux cs (m - 1) b2
      | none => c :: pySubAux cs 0 (c == '\n')
    else c :: pySubAux cs 0 (c == '\n')

/-- Model of `re.sub(pattern, '', x, 0, re.IGNORECASE | re.MULTILINE)`. -/
def pySub (s : Str) : Str := pySubAux s 0 true

/-- Per-cell cleaning of `get_future_forms`: pronoun substitution followed
by `strip()`. -/
def cleanFutureCell (cell : Str) : Str := pyStrip (pySub cell)

/-- Embedding of `get_future_forms`: the `Viitor` column is given as the
list of its cells (one per dataframe row, in row order); `.map` plus the
list comprehension keep one cleaned form per row. -/
def get_future_forms (viitor : List Str) : List Str :=
  viitor.map cleanFutureCell

/-! ### XML sessions -/

mutual
inductive Xml where
  | elem (tag : Str) (attrs : List (Str × Str)) (text : Option Str)
      (children : XmlList)

inductive XmlList where
  | nil
  | cons (x : Xml) (xs : XmlList)
end

def XmlList.ofList : List Xml → XmlList
  | [] => .nil
  | x :: xs => .cons x (XmlList.ofList xs)

def Xml.tag : Xml → Str
  | .elem t _ _ _ => t

def Xml.attrs : Xml → List (Str × Str)
  | .elem _ a _ _ => a

/-- Model of lxml `elem.get(name)`: the attribute value, if present. -/
def Xml.getAttr (x : Xml) (name : Str) : Option Str :=
  (x.attrs.find? (fun p => p.1 == name)).map Prod.snd

mutual
/-- Model of `''.join(u.itertext())` after every `tail` was set to `None`:
the node's own text followed by the text of its children, in document
order. -/
def itertext : Xml → Str
  | .elem _ _ t cs => t.getD [] ++ itertextL cs

def itertextL : XmlList → Str
  | .nil => []
  | .cons x xs => itertext x ++ itertextL xs
end

mutual
/-- Model of `root.iterdescendants()`: every proper descendant in document
order. -/
def descendants : Xml → List Xml
  | .elem _ _ _ cs => descendantsL cs

def descendantsL : XmlList → List Xml
  | .nil => []
  | .cons x xs => (x :: descendants x) ++ descendantsL xs
end

mutual
/-- Every proper descendant paired with the tag of its direct parent, in
document order (what the comprehension in `get_session_date` inspects via
`elem.getparent().tag`). -/
def descWithParent : Xml → List (Str × Xml)
  | .elem t _ _ cs => descWithParentL t cs

def descWithParentL : Str → XmlList → List (Str × Xml)
  | _, .nil => []
  | t, .cons x xs => ((t, x) :: descWithParent x) ++ descWithParentL t xs
end

/-- Namespaced utterance tag searched by both collectors. -/
def teiU : Str := strL "\x7bhttp://www.tei-c.org/ns/1.0\x7du"

/-- Model of `xml.iterdescendants('{tei}u')`: descendants whose tag is
exactly the namespaced `u` tag, in document order. -/
def uElements (root : Xml) : List Xml :=
  (descendants root).filter (fun e => e.tag == teiU)

/-! ### Session date -/

abbrev Date := Nat × Nat × Nat

def isDigit (c : Char) : Bool := '0' ≤ c && c ≤ '9'

def digitsVal (s : Str) : Nat :=
  s.foldl (fun a c => a * 10 + (c.toNat - '0'.toNat)) 0

def isLeapYear (y : Nat) : Bool :=
  y % 4 == 0 && (y % 100 != 0 || y % 400 == 0)

def daysInMonth (y m : Nat) : Nat :=
  if m = 2 then (if isLeapYear y then 29 else 28)
  else if m = 4 ∨ m = 6 ∨ m = 9 ∨ m = 11 then 30
  else 31

/-- Model of `datetime.strptime(s, '%Y-%m-%d').date()`.  CPython compiles
the format to the regex `\d\d\d\d` `-` `(1[0-2]|0[1-9]|[1-9])` `-`
`(3[01]|[12]\d|0[1-9]|[1-9])`, requires the whole string to be consumed,
and then `date(y, m, d)` validates `1 <= y` and the day against the
(leap-aware) month length.  Because the group patterns are digit-only and
`-` is not a digit, acceptance is equivalent to: exactly three `-`-parts;
a 4-digit year; 1-2 digit month and day; and range validity. -/
def parseYMD (s : Str) : Option Date :=
  match splitOnChar '-' s with
  | [ys, ms, ds] =>
    if ys.length = 4 && ys.all isDigit
        && (decide (1 ≤ ms.length) && ms.length ≤ 2) && ms.all isDigit
        && (decide (1 ≤ ds.length) && ds.length ≤ 2) && ds.all isDigit then
      let y := digitsVal ys
      let m := digitsVal ms
      let d := digitsVal ds
      if (decide (1 ≤ y) && decide (1 ≤ m) && m ≤ 12
          && decide (1 ≤ d) && d ≤ daysInMonth y m) then some (y, m, d)
      else none
    else none
  | _ => none

/-- The list built by the comprehension in `get_session_date`: every
descendant whose tag contains `date`, paired with its direct parent's
tag when that tag contains `setting`, in document order. -/
def sessionDateCandidates (root : Xml) : List (Str × Xml) :=
  (descWithParent root).filter
    (fun pe => strContains (strL "date") pe.2.tag
      && strContains (strL "setting") pe.1)

/-- Embedding of `get_session_date`: unpacking `date_elem, *_` takes the
first candidate and fails on an empty list; a missing or unparseable
`when` attribute makes `strptime` fail. -/
def get_session_date (root : Xml) : Option Date :=
  match sessionDateCandidates root with
  | [] => none
  | (_, e) :: _ => (e.getAttr (strL "when")).bind parseYMD

/-! ### Dictionaries -/

/-- First-match lookup in an association list (Python `d[k]` / `k in d`;
the lists built by `upsert` never repeat a key). -/
def alookup {α β : Type} [DecidableEq α] : List (α × β) → α → Option β
  | [], _ => none
  | (k2, v) :: rest, k => if k2 = k then some v else alookup rest k

/-- Python `d[k] = v`: replace in place if the key exists (dicts keep the
original insertion position), append otherwise. -/
def upsert {α β : Type} [DecidableEq α] : List (α × β) → α → β → List (α × β)
  | [], k, v => [(k, v)]
  | (k2, v2) :: rest, k, v =>
    if k2 = k then (k, v) :: rest else (k2, v2) :: upsert rest k v

/-- Python `set.add`: the set is modelled as a duplicate-free list,
extended at the end when the element is new. -/
def sinsert {α : Type} [DecidableEq α] (x : α) (l : List α) : List α :=
  if x ∈ l then l else l ++ [x]

/-! ### Per-file statistics collectors -/

abbrev Speaker := Option Str

/-- Model of `u.get('who')`: `none` when the attribute is absent (the
Python code then uses `None` itself as the dict key). -/
def whoOf (u : Xml) : Speaker := u.getAttr (strL "who")

/-- Per-utterance score of `get_usage_statistics`:
`sum([text.count(form) for form in forms])`. -/
def utterScore (forms : List Str) (text : Str) : Nat :=
  (forms.map (fun f => pyCount f text)).sum

abbrev SessStats := List (Speaker × Nat)

/-- Loop body of `get_usage_statistics` for one utterance. -/
def usageStep (forms : List Str) (stats : SessStats) (u : Xml) : SessStats :=
  let speaker := whoOf u
  let acc := (alookup stats speaker).getD 0 + utterScore forms (itertext u)
  upsert stats speaker acc

/-- Embedding of `get_usage_statistics`: session date plus per-speaker
total over all utterance elements.  A date-extraction failure propagates
(`none`). -/
def get_usage_statistics (forms : List Str) (root : Xml) :
    Option (Date × SessStats) :=
  (get_session_date root).map
    (fun date => (date, (uElements root).foldl (usageStep forms) []))

abbrev FormKey := Speaker × Date × Str

abbrev FormStats := List (FormKey × Nat)

/-- Inner loop body of `get_form_statistics` for one form of one
utterance: `acc = text.count(f)` plus the previous value of the key, if
any. -/
def formStep (date : Date) (sp : Speaker) (text : Str) (st : FormStats)
    (f : Str) : FormStats :=
  upsert st (sp, date, f) (pyCount f text + (alookup st (sp, date, f)).getD 0)

/-- Outer loop body of `get_form_statistics` for one utterance. -/
def formStepU (forms : List Str) (date : Date) (st : FormStats) (u : Xml) :
    FormStats :=
  forms.foldl (formStep date (whoOf u) (itertext u)) st

/-- Embedding of `get_form_statistics`: per-(speaker, date, form) totals
over all utterances, with the final comprehension dropping every entry
whose count is zero. -/
def get_form_statistics (forms : List Str) (root : Xml) : Option FormStats :=
  (get_session_date root).map
    (fun date =>
      ((uElements root).foldl (formStepU forms date) []).filter
        (fun kv => 0 < kv.2))

/-! ### Aggregators -/

/-- The `dates` set of `count_usage_per_session`. -/
def datesOf (data : List (Date × SessStats)) : List Date :=
  data.foldl (fun ds p => sinsert p.1 ds) []

/-- The `global_stats` dict of `count_usage_per_session` (later files
overwrite earlier ones on a duplicate date). -/
def globalStatsOf (data : List (Date × SessStats)) : List (Date × SessStats) :=
  data.foldl (fun gs p => upsert gs p.1 p.2) []

/-- The `speakers` set of `count_usage_per_session`. -/
def speakersOf (data : List (Date × SessStats)) : List Speaker :=
  data.foldl (fun sp p => p.2.foldl (fun sp2 kv => sinsert kv.1 sp2) sp) []

/-- One output row of the per-session table: Speaker, Date, UsageCount
(`none` is the pandas `None`/missing marker). -/
abbrev SessRow := Speaker × Date × Option Nat

/-- Embedding of the aggregation loop of `count_usage_per_session`:
`itertools.product(speakers, dates)` with a per-pair lookup, `None` when
the speaker has no entry in that date's stats.  The three parallel column
lists are zipped into rows. -/
def count_usage_per_session (data : List (Date × SessStats)) : List SessRow :=
  ((speakersOf data).product (datesOf data)).map
    (fun sd =>
      (sd.1, sd.2, (alookup (globalStatsOf data) sd.2).bind
        (fun st => alookup st sd.1)))

/-- One output row of the per-form table: Speaker, Date, Form, Count. -/
abbrev FormRow := Speaker × Date × Str × Nat

/-- Embedding of the aggregation loop of `count_usage_per_verb_form`:
plain flattening of every per-file result. -/
def count_usage_per_verb_form (data : List FormStats) : List FormRow :=
  data.flatMap (fun st => st.map (fun kv => (kv.1.1, kv.1.2.1, kv.1.2.2, kv.2)))

/-- Model of `joblib.Parallel`: every job runs independently, results are
collected in input order, and any job's uncaught exception aborts the
whole batch with no partial results. -/
def optMapM {α β : Type} (f : α → Option β) : List α → Option (List β)
  | [] => some []
  | x :: xs =>
    match f x with
    | none => none
    | some y => (optMapM f xs).map (fun ys => y :: ys)

/-- The per-session pipeline from parsed files to output rows. -/
def runPerSession (forms : List Str) (files : List Xml) :
    Option (List SessRow) :=
  (optMapM (get_usage_statistics forms) files).map count_usage_per_session

/-- The per-form pipeline from parsed files to output rows. -/
def runPerForm (forms : List Str) (files : List Xml) :
    Option (List FormRow) :=
  (optMapM (get_form_statistics forms) files).map count_usage_per_verb_form

/-! ### Derived quantities used to state the theorems -/

/-- Number of occurrences of form `f` in the tracked-forms list (the list
is not deduplicated; a duplicated form is counted once per occurrence). -/
def occCount (f : Str) (forms : List Str) : Nat :=
  forms.countP (fun g => decide (g = f))

/-- Total per-session score of a speaker key: the sum, over that
speaker's utterances in document order, of the per-utterance score. -/
def sessTotal (forms : List Str) (us : List Xml) (k : Speaker) : Nat :=
  (((us.filter (fun u => decide (whoOf u = k))).map
    (fun u => utterScore forms (itertext u)))).sum

/-- Total per-form score of a speaker key for one form: each utterance of
the speaker contributes `occCount f forms` times the count of `f` in its
text (a form listed twice is counted twice by the inner loop). -/
def formTotal (forms : List Str) (us : List Xml) (k : Speaker) (f : Str) :
    Nat :=
  (((us.filter (fun u => decide (whoOf u = k))).map
    (fun u => occCount f forms * pyCount f (itertext u)))).sum

/-- Number of utterances of a speaker key in a list of utterances. -/
def uttCount (us : List Xml) (k : Speaker) : Nat :=
  (us.filter (fun u => decide (whoOf u = k))).length

instance decEqFormKeyNat : DecidableEq (FormKey × Nat) := inferInstance

instance decEqFormStats : DecidableEq FormStats := inferInstance

/-! ### Spec-side definitions (for refinement comparisons only)

The two definitions below are NOT translated from the code; they follow
the specification's words and are compared against the code model. -/

/-- Modelled from the spec: a "well-formed YYYY-MM-DD date" as the spec
describes the date attribute — "fixed format: four-digit year, two-digit
month, two-digit day, hyphen-separated" — together with calendar
validity as required for a date. -/
def specWellFormedYMD (s : Str) : Bool :=
  match splitOnChar '-' s with
  | [ys, ms, ds] =>
    ys.length = 4 && ys.all isDigit && ms.length = 2 && ms.all isDigit
      && ds.length = 2 && ds.all isDigit
      && (decide (1 ≤ digitsVal ys)) && (decide (1 ≤ digitsVal ms))
      && digitsVal ms ≤ 12 && (decide (1 ≤ digitsVal ds))
      && digitsVal ds ≤ daysInMonth (digitsVal ys) (digitsVal ms)
  | _ => false

/-- Modelled from the spec: "manually removing the leading pronoun token
and its following whitespace" from one line — when the line begins
(case-insensitively) with a pronoun marker followed by whitespace, drop
the marker and the whitespace following it; otherwise leave the line
unchanged. -/
def specLineRemoval (line : Str) : Str :=
  match matchPron line with
  | some k =>
    match (line.drop k).head? with
    | some c => if isPySpace c then (line.drop k).dropWhile isPySpace else line
    | none => line
  | none => line

/-- Join lines with newline separators (inverse of `splitOnChar '\n'`). -/
def joinNL : List Str → Str
  | [] => []
  | [l] => l
  | l :: l2 :: ls => l ++ '\n' :: joinNL (l2 :: ls)

/-- Modelled from the spec: manual per-line pronoun removal applied to
every line of a cell, followed by trimming surrounding whitespace. -/
def specCellRemoval (cell : Str) : Str :=
  pyStrip (joinNL ((splitOnChar '\n' cell).map specLineRemoval))

/-- Lines on which the regex substitution provably agrees with per-line
manual removal: nonempty, not starting with whitespace, no embedded
newline, and any leading pronoun marker is followed by exactly one
whitespace character (then either the end of the line or a
non-whitespace character). -/
def goodLineB (L : Str) : Bool :=
  match L with
  | [] => false
  | c :: _ =>
    !isPySpace c && !(decide ('\n' ∈ L)) &&
    (match matchPron L with
     | none => true
     | some k =>
       match L.drop k with
       | [] => false
       | c2 :: rest =>
         isPySpace c2 &&
           (match rest.head? with
            | none => true
            | some c3 => !isPySpace c3))

/-! ### Concrete fixtures for the witnesses -/

/-- Tracked forms used by the concrete examples. -/
def wForms : List Str := [strL "voi merge", strL "va veni"]

/-- Setting element holding a date child with the given `when` value. -/
def settingWith (whenVal : String) : Xml :=
  Xml.elem (strL "setting") [] none
    (.ofList [Xml.elem (strL "date") [(strL "when", strL whenVal)] none .nil])

/-- Utterance element with an optional speaker attribute and given text. -/
def uttW (who : Option String) (txt : String) : Xml :=
  Xml.elem teiU
    (match who with
     | some w => [(strL "who", strL w)]
     | none => []) (some (strL txt)) .nil

/-- Session with speakers `#A` (two utterances, two matches) and `#B`
(one utterance, zero matches) on 2019-05-06. -/
def sessA : Xml :=
  Xml.elem (strL "TEI") [] none
    (.ofList [Xml.elem (strL "settingDesc") [] none
        (.ofList [settingWith "2019-05-06"]),
      uttW (some "#A") "voi merge acolo",
      uttW (some "#B") "nimic de spus",
      uttW (some "#A") "va veni"])

/-- Session whose `when` attribute is not parseable ("2019-13-40"). -/
def sessBadDate : Xml :=
  Xml.elem (strL "TEI") [] none
    (.ofList [Xml.elem (strL "settingDesc") [] none
        (.ofList [settingWith "2019-13-40"]),
      uttW (some "#A") "voi merge"])

/-- Session whose `when` attribute has a one-digit month and day. -/
def sessLenient : Xml :=
  Xml.elem (strL "TEI") [] none
    (.ofList [Xml.elem (strL "settingDesc") [] none
        (.ofList [settingWith "2020-1-3"]),
      uttW (some "#A") "voi merge"])

/-- Session containing an utterance without a `who` attribute. -/
def sessNoWho : Xml :=
  Xml.elem (strL "TEI") [] none
    (.ofList [Xml.elem (strL "settingDesc") [] none
        (.ofList [settingWith "2021-03-04"]),
      uttW none "voi merge oriunde",
      uttW (some "#A") "nimic",
      uttW none "va veni cineva"])

/-- Aggregation input realizing the spec's 4-row example: speaker `S1`
only on date `D1 = (1,1,1)`, speaker `S2` only on `D2 = (2,2,2)`. -/
def dataC1 : List (Date × SessStats) :=
  [((1, 1, 1), [(some (strL "S1"), 5)]), ((2, 2, 2), [(some (strL "S2"), 7)])]

/-- The same two per-file results in the opposite enumeration order. -/
def dataC1rev : List (Date × SessStats) :=
  [((2, 2, 2), [(some (strL "S2"), 7)]), ((1, 1, 1), [(some (strL "S1"), 5)])]

/-- Number of occurrences of one output row in the per-session table. -/
def rowCount (rows : List SessRow) (r : SessRow) : Nat :=
  rows.countP (fun r2 => decide (r2 = r))

/-! ## Dictionary lemmas -/

theorem alookup_upsert {α β : Type} [DecidableEq α] (l : List (α × β))
    (k : α) (v : β) (k2 : α) :
    alookup (upsert l k v) k2 = if k = k2 then some v else alookup l k2 := by
  induction l with
  | nil => simp [upsert, alookup]
  | cons p rest ih =>
    obtain ⟨k3, v3⟩ := p
    by_cases h3 : k3 = k
    · subst h3
      by_cases h2 : k3 = k2 <;> simp [upsert, alookup, h2]
    · by_cases h2 : k3 = k2
      · subst h2
        have hk : ¬k = k3 := fun h => h3 h.symm
        simp [upsert, alookup, h3, hk]
      · simp [upsert, alookup, h3, h2, ih]

theorem alookup_mem {α β : Type} [DecidableEq α] {l : List (α × β)} {k : α}
    {v : β} (h : alookup l k = some v) : (k, v) ∈ l := by
  induction l with
  | nil => simp [alookup] at h
  | cons p rest ih =>
    obtain ⟨k3, v3⟩ := p
    by_cases h3 : k3 = k
    · subst h3
      simp [alookup] at h
      simp [h]
    · simp [alookup, h3] at h
      simp [ih h]

theorem alookup_some_mem_keys {α β : Type} [DecidableEq α]
    {l : List (α × β)} {k : α} {v : β} (h : alookup l k = some v) :
    k ∈ l.map Prod.fst := by
  have := alookup_mem h
  exact List.mem_map.mpr ⟨(k, v), this, rfl⟩

theorem upsert_keys {α β : Type} [DecidableEq α] (l : List (α × β))
    (k : α) (v : β) :
    (upsert l k v).map Prod.fst =
      if k ∈ l.map Prod.fst then l.map Prod.fst
      else l.map Prod.fst ++ [k] := by
  induction l with
  | nil => simp [upsert]
  | cons p rest ih =>
    obtain ⟨k3, v3⟩ := p
    by_cases h3 : k3 = k
    · subst h3
      simp [upsert]
    · have hk : ¬k = k3 := fun h => h3 h.symm
      by_cases hm : k ∈ rest.map Prod.fst <;>
        simp [upsert, h3, hm, hk, ih]

theorem keysNodup_upsert {α β : Type} [DecidableEq α] {l : List (α × β)}
    (k : α) (v : β) (h : (l.map Prod.fst).Nodup) :
    ((upsert l k v).map Prod.fst).Nodup := by
  rw [upsert_keys]
  by_cases hm : k ∈ l.map Prod.fst
  · simpa [hm]
  · simp only [hm, if_false]
    have := List.Nodup.append h (List.nodup_singleton k)
      (by simpa [List.disjoint_singleton] using hm)
    simpa using this

theorem mem_alookup_of_keysNodup {α β : Type} [DecidableEq α]
    {l : List (α × β)} {k : α} {v : β} (hnd : (l.map Prod.fst).Nodup)
    (h : (k, v) ∈ l) : alookup l k = some v := by
  induction l with
  | nil => simp at h
  | cons p rest ih =>
    obtain ⟨k3, v3⟩ := p
    simp only [List.map_cons, List.nodup_cons] at hnd
    rcases List.mem_cons.mp h with h1 | h1
    · obtain ⟨hk, hv⟩ := Prod.mk.injEq .. ▸ h1
      cases h1
      simp [alookup]
    · have hk3 : k3 ≠ k := by
        intro he
        subst he
        exact hnd.1 (List.mem_map.mpr ⟨(k3, v), h1, rfl⟩)
      simp [alookup, hk3, ih hnd.2 h1]

/-! ## The per-session collector fold -/

theorem sessTotal_cons (forms : List Str) (u : Xml) (us : List Xml)
    (k : Speaker) :
    sessTotal forms (u :: us) k =
      if whoOf u = k
      then utterScore forms (itertext u) + sessTotal forms us k
      else sessTotal forms us k := by
  by_cases h : whoOf u = k <;> simp [sessTotal, List.filter_cons, h]

theorem sessTotal_eq_zero (forms : List Str) (us : List Xml) (k : Speaker)
    (h : ¬k ∈ us.map whoOf) : sessTotal forms us k = 0 := by
  have : us.filter (fun u => decide (whoOf u = k)) = [] := by
    rw [List.filter_eq_nil_iff]
    intro u hu
    simp only [decide_eq_true_eq]
    intro he
    exact h (List.mem_map.mpr ⟨u, hu, he⟩)
  simp [sessTotal, this]

theorem usageFold_alookup (forms : List Str) (us : List Xml)
    (init : SessStats) (k : Speaker) :
    alookup (us.foldl (usageStep forms) init) k =
      if k ∈ us.map whoOf
      then some ((alookup init k).getD 0 + sessTotal forms us k)
      else alookup init k := by
  induction us generalizing init with
  | nil => simp [sessTotal]
  | cons u us ih =>
    rw [List.foldl_cons, ih]
    have hstep : alookup (usageStep forms init u) k =
        if whoOf u = k
        then some ((alookup init k).getD 0 + utterScore forms (itertext u))
        else alookup init k := by
      by_cases h : whoOf u = k
      · subst h
        simp [usageStep, alookup_upsert]
      · simp [usageStep, alookup_upsert, h]
    rw [sessTotal_cons]
    by_cases hk : whoOf u = k
    · subst hk
      by_cases hmem : whoOf u ∈ us.map whoOf
      · simp only [hstep, if_pos rfl, hmem, if_pos, List.map_cons,
          List.mem_cons, true_or, Option.getD_some]
        congr 1
        omega
      · rw [sessTotal_eq_zero forms us _ hmem]
        simp [hstep, hmem]
    · have hm2 : k ∈ (u :: us).map whoOf ↔ k ∈ us.map whoOf := by
        simp only [List.map_cons, List.mem_cons]
        constructor
        · rintro (h | h)
          · exact absurd h.symm hk
          · exact h
        · exact Or.inr
      have hk2 : ¬k = whoOf u := fun h => hk h.symm
      by_cases hmem : k ∈ us.map whoOf <;>
        simp [hstep, hk, hk2, hmem, hm2]

theorem usage_stats_date {forms : List Str} {root : Xml} {date : Date}
    {stats : SessStats}
    (h : get_usage_statistics forms root = some (date, stats)) :
    get_session_date root = some date := by
  unfold get_usage_statistics at h
  cases hgd : get_session_date root with
  | none => rw [hgd] at h; simp at h
  | some d =>
    rw [hgd] at h
    simp only [Option.map_some'] at h
    have hd : d = date := congrArg Prod.fst (Option.some.inj h)
    rw [hd]

theorem usage_stats_fold {forms : List Str} {root : Xml} {date : Date}
    {stats : SessStats}
    (h : get_usage_statistics forms root = some (date, stats)) :
    stats = (uElements root).foldl (usageStep forms) [] := by
  unfold get_usage_statistics at h
  cases hgd : get_session_date root with
  | none => rw [hgd] at h; simp at h
  | some d =>
    rw [hgd] at h
    simp only [Option.map_some'] at h
    exact (congrArg Prod.snd (Option.some.inj h)).symm

theorem usage_stats_alookup {forms : List Str} {root : Xml} {date : Date}
    {stats : SessStats}
    (h : get_usage_statistics forms root = some (date, stats)) (k : Speaker) :
    alookup stats k =
      if k ∈ (uElements root).map whoOf
      then some (sessTotal forms (uElements root) k)
      else none := by
  rw [usage_stats_fold h, usageFold_alookup]
  simp [alookup]

/-- Claim C2: in per-session mode the collector returns the session date
together with a mapping whose keys are exactly the speaker keys having at
least one utterance in the file, each mapped to the sum over that
speaker's utterances of the summed substring counts of every tracked
form; a speaker who spoke with zero matches is present with value 0, not
missing. -/
theorem usage_statistics_characterization (forms : List Str) (root : Xml)
    (date : Date) (stats : SessStats)
    (h : get_usage_statistics forms root = some (date, stats)) :
    get_session_date root = some date ∧
    (∀ k : Speaker,
      alookup stats k =
        if k ∈ (uElements root).map whoOf
        then some (sessTotal forms (uElements root) k)
        else none) :=
  ⟨usage_stats_date h, usage_stats_alookup h⟩

/-- Witness for C2 at the session `sessA`: speaker `#B` spoke but used no
tracked form and is reported with an explicit count 0, not missing. -/
theorem usage_statistics_characterization_witness :
    alookup [((some (strL "#A") : Speaker), 2), (some (strL "#B"), 0)]
        (some (strL "#B")) =
      (if (some (strL "#B") : Speaker) ∈ (uElements sessA).map whoOf
       then some (sessTotal wForms (uElements sessA) (some (strL "#B")))
       else none) ∧
    sessTotal wForms (uElements sessA) (some (strL "#B")) = 0 :=
  ⟨(usage_statistics_characterization wForms sessA (2019, 5, 6)
      [(some (strL "#A"), 2), (some (strL "#B"), 0)] (by decide)).2
      (some (strL "#B")),
    by decide⟩

/-! ## Counting-primitive lemmas -/

theorem isPrefixOf_append (p t : Str) : p.isPrefixOf (p ++ t) = true := by
  induction p with
  | nil => simp [List.isPrefixOf]
  | cons c p ih => simp [List.isPrefixOf, ih]

theorem pyCountAux_skip (pat cs : Str) (k : Nat) :
    pyCountAux pat cs k = pyCountAux pat (cs.drop k) 0 := by
  induction cs generalizing k with
  | nil => cases k <;> simp [pyCountAux]
  | cons c cs ih =>
    cases k with
    | zero => simp
    | succ k => simpa [pyCountAux] using ih k

/-- Claim C4 counterexample: the claim asserts that counting tracked form
"a" in text "aaa" yields 1; `str.count` instead counts all three
single-character occurrences (they do not overlap each other). -/
theorem pyCount_aaa_counterexample :
    pyCount (strL "a") (strL "aaa") = 3 ∧
    ¬pyCount (strL "a") (strL "aaa") = 1 := by decide

/-- Claim C4 (amended): the counting primitive used by both collectors
counts non-overlapping substring matches left-to-right — a match at the
head of the text is counted once and scanning resumes after it — so
"ama" in "mama" counts 1, "a" in "aaa" counts 3 (adjacent one-character
matches do not overlap), and "aa" in "aaa" counts 1 (overlap
suppressed). -/
theorem pyCount_nonoverlapping (p t : Str) (hp : p ≠ []) :
    pyCount p (p ++ t) = 1 + pyCount p t ∧
    pyCount (strL "ama") (strL "mama") = 1 ∧
    pyCount (strL "a") (strL "aaa") = 3 ∧
    pyCount (strL "aa") (strL "aaa") = 1 := by
  refine ⟨?_, by decide, by decide, by decide⟩
  obtain ⟨c, p2, rfl⟩ : ∃ c p2, p = c :: p2 := by
    cases p with
    | nil => exact absurd rfl hp
    | cons c p2 => exact ⟨c, p2, rfl⟩
  have hpre := isPrefixOf_append (c :: p2) t
  simp only [pyCount, if_neg (List.cons_ne_nil c p2), List.cons_append]
  rw [pyCountAux]
  simp only [List.cons_append] at hpre
  rw [if_pos hpre, pyCountAux_skip]
  simp [List.drop_left]

/-- Witness for the general conjunct of the amended C4. -/
theorem pyCount_nonoverlapping_witness :
    strL "aa" ≠ [] ∧
    pyCount (strL "aa") (strL "aa" ++ strL "aa") =
      1 + pyCount (strL "aa") (strL "aa") :=
  ⟨by decide, (pyCount_nonoverlapping (strL "aa") (strL "aa") (by decide)).1⟩

theorem sum_pos_of_mem {l : List Nat} {x : Nat} (hx : x ∈ l) (hpos : 0 < x) :
    0 < l.sum := by
  induction l with
  | nil => simp at hx
  | cons y ys ih =>
    rcases List.mem_cons.mp hx with h | h
    · subst h; simp; omega
    · have := ih h
      simp
      omega

/-- Claim C7: a tracked form that is empty matches everywhere — its count
in any text is `length + 1 > 0`; prepending an empty form to the tracked
list adds exactly `length + 1` to every utterance score, with no guard in
the collector or aggregation, so every speaker key with at least one
utterance receives a strictly positive total. -/
theorem empty_form_inflation (t : Str) (forms : List Str) (root : Xml)
    (date : Date) (stats : SessStats)
    (h : get_usage_statistics ([] :: forms) root = some (date, stats)) :
    pyCount [] t = t.length + 1 ∧
    utterScore ([] :: forms) t = (t.length + 1) + utterScore forms t ∧
    ∀ k ∈ (uElements root).map whoOf,
      ∃ c, alookup stats k = some c ∧ 0 < c := by
  refine ⟨by simp [pyCount], by simp [utterScore, pyCount], ?_⟩
  intro k hk
  rw [usage_stats_alookup h k, if_pos hk]
  refine ⟨_, rfl, ?_⟩
  obtain ⟨u, hu, hku⟩ := List.mem_map.mp hk
  have humem : u ∈ (uElements root).filter (fun u => decide (whoOf u = k)) :=
    List.mem_filter.mpr ⟨hu, by simp [hku]⟩
  have hmemmap : utterScore ([] :: forms) (itertext u) ∈
      ((uElements root).filter (fun u => decide (whoOf u = k))).map
        (fun u => utterScore ([] :: forms) (itertext u)) :=
    List.mem_map.mpr ⟨u, humem, rfl⟩
  refine sum_pos_of_mem hmemmap ?_
  simp [utterScore, pyCount]

/-- Witness for C7: with the empty form tracked, speaker `#B` of `sessA`
(whose text matches no real form) still gets a strictly positive count. -/
theorem empty_form_inflation_witness :
    ∃ c, alookup [((some (strL "#A") : Speaker), 26), (some (strL "#B"), 14)]
        (some (strL "#B")) = some c ∧ 0 < c :=
  (empty_form_inflation (strL "x") wForms sessA (2019, 5, 6)
      [(some (strL "#A"), 26), (some (strL "#B"), 14)] (by decide)).2.2
    (some (strL "#B")) (by decide)

/-! ## The per-form collector fold -/

theorem occCount_cons (f g : Str) (gs : List Str) :
    occCount f (g :: gs) = occCount f gs + if g = f then 1 else 0 := by
  simp [occCount, List.countP_cons]

theorem occCount_eq_zero {f : Str} {gs : List Str} (h : ¬f ∈ gs) :
    occCount f gs = 0 := by
  rw [occCount, List.countP_eq_zero]
  intro g hg
  simp only [decide_eq_true_eq]
  intro he
  exact h (he ▸ hg)

theorem formStep_fold_alookup (date : Date) (sp : Speaker) (text : Str)
    (forms : List Str) (st : FormStats) (k1 : Speaker) (kd : Date)
    (kf : Str) :
    alookup (forms.foldl (formStep date sp text) st) (k1, kd, kf) =
      if k1 = sp ∧ kd = date ∧ kf ∈ forms
      then some (occCount kf forms * pyCount kf text +
        (alookup st (k1, kd, kf)).getD 0)
      else alookup st (k1, kd, kf) := by
  induction forms generalizing st with
  | nil => simp
  | cons g gs ih =>
    rw [List.foldl_cons, ih]
    have hstep : ∀ k2 : FormKey,
        alookup (formStep date sp text st g) k2 =
          if (sp, date, g) = k2
          then some (pyCount g text + (alookup st (sp, date, g)).getD 0)
          else alookup st k2 := fun k2 => by
      simp [formStep, alookup_upsert]
    by_cases hsp : k1 = sp
    case neg =>
      have hne : (sp, date, g) ≠ (k1, kd, kf) := by
        intro he
        exact hsp (congrArg Prod.fst he).symm
      rw [hstep, if_neg hne, if_neg (fun hc => hsp hc.1),
        if_neg (fun hc => hsp hc.1)]
    case pos =>
    subst hsp
    by_cases hdt : kd = date
    case neg =>
      have hne : (k1, date, g) ≠ (k1, kd, kf) := by
        intro he
        exact hdt (congrArg (fun p : FormKey => p.2.1) he).symm
      rw [hstep, if_neg hne, if_neg (fun hc => hdt hc.2.1),
        if_neg (fun hc => hdt hc.2.1)]
    case pos =>
    subst hdt
    by_cases hfg : kf = g
    case pos =>
      subst hfg
      rw [hstep, if_pos rfl]
      by_cases hgs : kf ∈ gs
      · rw [if_pos ⟨rfl, rfl, hgs⟩, if_pos ⟨rfl, rfl, List.mem_cons_self kf gs⟩]
        simp only [Option.getD_some, occCount_cons, eq_self_iff_true, if_true,
          Option.some.injEq, Nat.add_mul, Nat.one_mul]
        omega
      · rw [if_neg (fun hc => hgs hc.2.2),
          if_pos ⟨rfl, rfl, List.mem_cons_self kf gs⟩]
        simp only [occCount_cons, occCount_eq_zero hgs, eq_self_iff_true,
          if_true, Option.some.injEq, Nat.zero_add, Nat.one_mul]
    case neg =>
      have hne : (k1, kd, g) ≠ (k1, kd, kf) := by
        intro he
        exact hfg (congrArg (fun p : FormKey => p.2.2) he).symm
      rw [hstep, if_neg hne]
      have hmm : kf ∈ g :: gs ↔ kf ∈ gs := by
        simp only [List.mem_cons, or_iff_right_iff_imp]
        intro he
        exact absurd he hfg
      by_cases hgs : kf ∈ gs
      · rw [if_pos ⟨rfl, rfl, hgs⟩, if_pos ⟨rfl, rfl, hmm.mpr hgs⟩,
          occCount_cons, if_neg (fun he => hfg he.symm)]
        simp
      · rw [if_neg (fun hc => hgs hc.2.2),
          if_neg (fun hc => hgs (hmm.mp hc.2.2))]

theorem formTotal_cons (forms : List Str) (u : Xml) (us : List Xml)
    (k : Speaker) (f : Str) :
    formTotal forms (u :: us) k f =
      if whoOf u = k
      then occCount f forms * pyCount f (itertext u) + formTotal forms us k f
      else formTotal forms us k f := by
  by_cases h : whoOf u = k <;> simp [formTotal, List.filter_cons, h]

theorem formTotal_eq_zero (forms : List Str) (us : List Xml) (k : Speaker)
    (f : Str) (h : ¬k ∈ us.map whoOf) : formTotal forms us k f = 0 := by
  have : us.filter (fun u => decide (whoOf u = k)) = [] := by
    rw [List.filter_eq_nil_iff]
    intro u hu
    simp only [decide_eq_true_eq]
    intro he
    exact h (List.mem_map.mpr ⟨u, hu, he⟩)
  simp [formTotal, this]

theorem formStepU_fold_alookup (forms : List Str) (date : Date)
    (us : List Xml) (init : FormStats) (k1 : Speaker) (kd : Date)
    (kf : Str) :
    alookup (us.foldl (formStepU forms date) init) (k1, kd, kf) =
      if k1 ∈ us.map whoOf ∧ kd = date ∧ kf ∈ forms
      then some ((alookup init (k1, kd, kf)).getD 0 +
        formTotal forms us k1 kf)
      else alookup init (k1, kd, kf) := by
  induction us generalizing init with
  | nil => simp [formTotal]
  | cons u us ih =>
    rw [List.foldl_cons, ih]
    have hstep := formStep_fold_alookup date (whoOf u) (itertext u) forms
      init k1 kd kf
    rw [show formStepU forms date init u =
      forms.foldl (formStep date (whoOf u) (itertext u)) init from rfl,
      hstep]
    by_cases h2 : kd = date
    case neg => simp [h2]
    case pos =>
    subst h2
    by_cases h3 : kf ∈ forms
    case neg => simp [h3]
    case pos =>
    by_cases h1 : k1 = whoOf u
    · subst h1
      by_cases h4 : whoOf u ∈ us.map whoOf <;>
        simp [h3, h4, formTotal_cons, formTotal_eq_zero, List.mem_cons,
          Option.some.injEq] <;>
        omega
    · have h1b : ¬whoOf u = k1 := fun h => h1 h.symm
      by_cases h4 : k1 ∈ us.map whoOf <;>
        simp [h1, h1b, h3, h4, formTotal_cons, List.mem_cons]

/-! ## Key-uniqueness of the collector dictionaries -/

theorem keysNodup_formStep_fold (date : Date) (sp : Speaker) (text : Str)
    (forms : List Str) {st : FormStats}
    (h : (st.map Prod.fst).Nodup) :
    (((forms.foldl (formStep date sp text) st)).map Prod.fst).Nodup := by
  induction forms generalizing st with
  | nil => exact h
  | cons g gs ih =>
    rw [List.foldl_cons]
    exact ih (keysNodup_upsert _ _ h)

theorem keysNodup_formStepU_fold (forms : List Str) (date : Date)
    (us : List Xml) {init : FormStats}
    (h : (init.map Prod.fst).Nodup) :
    (((us.foldl (formStepU forms date) init)).map Prod.fst).Nodup := by
  induction us generalizing init with
  | nil => exact h
  | cons u us ih =>
    rw [List.foldl_cons]
    exact ih (keysNodup_formStep_fold _ _ _ _ h)

theorem form_stats_date {forms : List Str} {root : Xml} {fstats : FormStats}
    (h : get_form_statistics forms root = some fstats) :
    ∃ date, get_session_date root = some date ∧
      fstats = ((uElements root).foldl (formStepU forms date) []).filter
        (fun kv => 0 < kv.2) := by
  unfold get_form_statistics at h
  cases hgd : get_session_date root with
  | none => rw [hgd] at h; simp at h
  | some d =>
    rw [hgd] at h
    simp only [Option.map_some'] at h
    exact ⟨d, rfl, (Option.some.inj h).symm⟩

theorem form_stats_mem {forms : List Str} {root : Xml} {fstats : FormStats}
    {date : Date} (hd : get_session_date root = some date)
    (h : get_form_statistics forms root = some fstats) (k1 : Speaker)
    (kd : Date) (kf : Str) (c : Nat) :
    ((k1, kd, kf), c) ∈ fstats ↔
      (k1 ∈ (uElements root).map whoOf ∧ kd = date ∧ kf ∈ forms ∧
        c = formTotal forms (uElements root) k1 kf ∧ 0 < c) := by
  obtain ⟨d2, hd2, hfs⟩ := form_stats_date h
  rw [hd] at hd2
  have hdd : d2 = date := (Option.some.inj hd2).symm
  subst hdd
  subst hfs
  rw [List.mem_filter]
  constructor
  · rintro ⟨hmem, hpos⟩
    have hlk := mem_alookup_of_keysNodup
      (keysNodup_formStepU_fold forms d2 (uElements root) (by simp)) hmem
    rw [formStepU_fold_alookup] at hlk
    by_cases hc : k1 ∈ (uElements root).map whoOf ∧ kd = d2 ∧ kf ∈ forms
    · rw [if_pos hc] at hlk
      have hcv : c = formTotal forms (uElements root) k1 kf := by
        have := Option.some.inj hlk
        simp only [alookup, Option.getD_none] at this
        omega
      exact ⟨hc.1, hc.2.1, hc.2.2, hcv, by simpa using hpos⟩
    · rw [if_neg hc] at hlk
      simp [alookup] at hlk
  · rintro ⟨hsp, hkd, hkf, hcv, hpos⟩
    refine ⟨?_, by simpa using hpos⟩
    apply alookup_mem (l := (uElements root).foldl (formStepU forms d2) [])
    rw [formStepU_fold_alookup, if_pos ⟨hsp, hkd, hkf⟩]
    simp [alookup, hcv]

/-! ## Driver lemmas -/

theorem optMapM_mem {α β : Type} {f : α → Option β} {l : List α}
    {ys : List β} (h : optMapM f l = some ys) {y : β} (hy : y ∈ ys) :
    ∃ x ∈ l, f x = some y := by
  induction l generalizing ys with
  | nil =>
    simp only [optMapM] at h
    rw [← Option.some.inj h] at hy
    simp at hy
  | cons x xs ih =>
    simp only [optMapM] at h
    cases hfx : f x with
    | none => rw [hfx] at h; simp at h
    | some b =>
      rw [hfx] at h
      cases hrest : optMapM f xs with
      | none => rw [hrest] at h; simp at h
      | some ys2 =>
        rw [hrest] at h
        simp only [Option.map_some'] at h
        rw [← Option.some.inj h] at hy
        rcases List.mem_cons.mp hy with h1 | h1
        · exact ⟨x, List.mem_cons_self x xs, h1 ▸ hfx⟩
        · obtain ⟨x2, hx2, hfx2⟩ := ih hrest h1
          exact ⟨x2, List.mem_cons_of_mem x hx2, hfx2⟩

theorem optMapM_eq_none {α β : Type} {f : α → Option β} {l : List α}
    (h : ∃ x ∈ l, f x = none) : optMapM f l = none := by
  induction l with
  | nil => simp at h
  | cons y ys ih =>
    obtain ⟨x, hx, hfx⟩ := h
    rcases List.mem_cons.mp hx with h1 | h1
    · subst h1
      simp [optMapM, hfx]
    · cases hfy : f y with
      | none => simp [optMapM, hfy]
      | some b => simp [optMapM, hfy, ih ⟨x, h1, hfx⟩]

/-- Claim C3: the per-form collector drops every zero-count entry, so its
result contains only strictly positive counts; the per-form aggregator
only flattens those results, so no output row has Count = 0; and a
speaker whose utterances in a session match no tracked form contributes
no entry at all. -/
theorem per_form_positive_counts :
    (∀ (forms : List Str) (root : Xml) (fstats : FormStats),
      get_form_statistics forms root = some fstats →
      ∀ kv ∈ fstats, 0 < kv.2) ∧
    (∀ (forms : List Str) (files : List Xml) (rows : List FormRow),
      runPerForm forms files = some rows → ∀ r ∈ rows, 0 < r.2.2.2) ∧
    (∀ (forms : List Str) (root : Xml) (fstats : FormStats) (sp : Speaker),
      get_form_statistics forms root = some fstats →
      (∀ u ∈ uElements root, whoOf u = sp →
        ∀ f ∈ forms, pyCount f (itertext u) = 0) →
      ∀ kv ∈ fstats, kv.1.1 ≠ sp) := by
  have hpos : ∀ (forms : List Str) (root : Xml) (fstats : FormStats),
      get_form_statistics forms root = some fstats →
      ∀ kv ∈ fstats, 0 < kv.2 := by
    intro forms root fstats h kv hkv
    obtain ⟨date, -, hfs⟩ := form_stats_date h
    subst hfs
    simpa using (List.mem_filter.mp hkv).2
  refine ⟨hpos, ?_, ?_⟩
  · intro forms files rows h r hr
    unfold runPerForm at h
    cases hdata : optMapM (get_form_statistics forms) files with
    | none => rw [hdata] at h; simp at h
    | some data =>
      rw [hdata] at h
      simp only [Option.map_some'] at h
      rw [← Option.some.inj h] at hr
      unfold count_usage_per_verb_form at hr
      obtain ⟨st, hst, hrmem⟩ := List.mem_flatMap.mp hr
      obtain ⟨kv, hkv, hkvr⟩ := List.mem_map.mp hrmem
      obtain ⟨root, -, hroot⟩ := optMapM_mem hdata hst
      have := hpos forms root st hroot kv hkv
      rw [← hkvr]
      simpa using this
  · intro forms root fstats sp h hzero kv hkv heq
    obtain ⟨date, hdate, -⟩ := form_stats_date h
    obtain ⟨⟨k1, kd, kf⟩, c⟩ := kv
    rw [form_stats_mem hdate h] at hkv
    obtain ⟨hsp, hkd, hkf, hcv, hcpos⟩ := hkv
    have htz : formTotal forms (uElements root) k1 kf = 0 := by
      rw [formTotal]
      apply List.sum_eq_zero
      intro x hx
      obtain ⟨u, hu, hux⟩ := List.mem_map.mp hx
      have humem := (List.mem_filter.mp hu).1
      have huw : whoOf u = k1 := by
        simpa using (List.mem_filter.mp hu).2
      rw [← hux, hzero u humem (heq ▸ huw) kf hkf, Nat.mul_zero]
    rw [hcv, htz] at hcpos
    exact absurd hcpos (by simp)

/-- Witness for C3 at `sessA` and the tracked forms `wForms`: the first
emitted entry has a strictly positive count. -/
theorem per_form_positive_counts_witness :
    0 < ((((some (strL "#A") : Speaker), ((2019, 5, 6) : Date),
      strL "voi merge"), 1) : FormKey × Nat).2 :=
  per_form_positive_counts.1 wForms sessA
    [((some (strL "#A"), (2019, 5, 6), strL "voi merge"), 1),
     ((some (strL "#A"), (2019, 5, 6), strL "va veni"), 1)] (by decide)
    ((some (strL "#A"), (2019, 5, 6), strL "voi merge"), 1) (by decide)

/-! ## Aggregation-set lemmas -/

theorem mem_sinsert {α : Type} [DecidableEq α] (x y : α) (l : List α) :
    y ∈ sinsert x l ↔ y ∈ l ∨ y = x := by
  by_cases h : x ∈ l
  · simp only [sinsert, if_pos h]
    constructor
    · exact Or.inl
    · rintro (h1 | h1)
      · exact h1
      · exact h1 ▸ h
  · simp [sinsert, if_neg h]

theorem nodup_sinsert {α : Type} [DecidableEq α] (x : α) {l : List α}
    (h : l.Nodup) : (sinsert x l).Nodup := by
  by_cases hm : x ∈ l
  · simpa [sinsert, hm]
  · simp only [sinsert, if_neg hm]
    have := List.Nodup.append h (List.nodup_singleton x)
      (by simpa [List.disjoint_singleton] using hm)
    simpa using this

theorem datesFold_mem (data : List (Date × SessStats)) (init : List Date)
    (d : Date) :
    d ∈ data.foldl (fun ds p => sinsert p.1 ds) init ↔
      d ∈ init ∨ d ∈ data.map Prod.fst := by
  induction data generalizing init with
  | nil => simp
  | cons p ps ih =>
    rw [List.foldl_cons, ih, mem_sinsert]
    simp only [List.map_cons, List.mem_cons]
    tauto

theorem datesOf_mem (data : List (Date × SessStats)) (d : Date) :
    d ∈ datesOf data ↔ d ∈ data.map Prod.fst := by
  unfold datesOf
  rw [datesFold_mem]
  simp

theorem datesFold_nodup (data : List (Date × SessStats))
    (init : List Date) (h : init.Nodup) :
    (data.foldl (fun ds p => sinsert p.1 ds) init).Nodup := by
  induction data generalizing init with
  | nil => exact h
  | cons p ps ih => exact ih _ (nodup_sinsert _ h)

theorem datesOf_nodup (data : List (Date × SessStats)) :
    (datesOf data).Nodup :=
  datesFold_nodup data [] List.nodup_nil

theorem spFoldInner_mem (st : SessStats) (init : List Speaker)
    (s : Speaker) :
    s ∈ st.foldl (fun sp2 kv => sinsert kv.1 sp2) init ↔
      s ∈ init ∨ s ∈ st.map Prod.fst := by
  induction st generalizing init with
  | nil => simp
  | cons kv kvs ih =>
    rw [List.foldl_cons, ih, mem_sinsert]
    simp only [List.map_cons, List.mem_cons]
    tauto

theorem spFoldInner_nodup (st : SessStats) (init : List Speaker)
    (h : init.Nodup) :
    (st.foldl (fun sp2 kv => sinsert kv.1 sp2) init).Nodup := by
  induction st generalizing init with
  | nil => exact h
  | cons kv kvs ih => exact ih _ (nodup_sinsert _ h)

theorem speakersOf_mem (data : List (Date × SessStats)) (s : Speaker) :
    s ∈ speakersOf data ↔ ∃ p ∈ data, s ∈ p.2.map Prod.fst := by
  have main : ∀ (dt : List (Date × SessStats)) (init : List Speaker),
      s ∈ dt.foldl
        (fun sp p => p.2.foldl (fun sp2 kv => sinsert kv.1 sp2) sp) init ↔
        s ∈ init ∨ ∃ p ∈ dt, s ∈ p.2.map Prod.fst := by
    intro dt
    induction dt with
    | nil => simp
    | cons p ps ih =>
      intro init
      rw [List.foldl_cons, ih, spFoldInner_mem]
      simp only [List.mem_cons]
      constructor
      · rintro ((h1 | h1) | ⟨q, hq, hs⟩)
        · exact Or.inl h1
        · exact Or.inr ⟨p, Or.inl rfl, h1⟩
        · exact Or.inr ⟨q, Or.inr hq, hs⟩
      · rintro (h1 | ⟨q, hq | hq, hs⟩)
        · exact Or.inl (Or.inl h1)
        · exact Or.inl (Or.inr (hq ▸ hs))
        · exact Or.inr ⟨q, hq, hs⟩
  rw [speakersOf, main]
  simp

theorem speakersOf_nodup (data : List (Date × SessStats)) :
    (speakersOf data).Nodup := by
  have main : ∀ (dt : List (Date × SessStats)) (init : List Speaker),
      init.Nodup →
      (dt.foldl
        (fun sp p => p.2.foldl (fun sp2 kv => sinsert kv.1 sp2) sp)
        init).Nodup := by
    intro dt
    induction dt with
    | nil => exact fun _ h => h
    | cons p ps ih =>
      intro init h
      exact ih _ (spFoldInner_nodup _ _ h)
  exact main data [] List.nodup_nil

/-! ## Last-wins lookup in `global_stats` -/

theorem find?_append_formula {α : Type} (l1 l2 : List α) (p : α → Bool) :
    (l1 ++ l2).find? p =
      match l1.find? p with
      | some x => some x
      | none => l2.find? p := by
  induction l1 with
  | nil => simp
  | cons a l ih =>
    by_cases h : p a
    · rw [List.cons_append, List.find?_cons_of_pos _ h,
        List.find?_cons_of_pos _ h]
    · rw [List.cons_append, List.find?_cons_of_neg _ h,
        List.find?_cons_of_neg _ h, ih]

theorem globalStatsFold_alookup (data : List (Date × SessStats))
    (init : List (Date × SessStats)) (d : Date) :
    alookup (data.foldl (fun gs p => upsert gs p.1 p.2) init) d =
      match data.reverse.find? (fun p => decide (p.1 = d)) with
      | some p => some p.2
      | none => alookup init d := by
  induction data generalizing init with
  | nil => simp
  | cons p ps ih =>
    rw [List.foldl_cons, ih, List.reverse_cons, find?_append_formula]
    cases hf : ps.reverse.find? (fun q => decide (q.1 = d)) with
    | some q => rfl
    | none =>
      by_cases hd : p.1 = d
      · rw [List.find?_cons_of_pos _ (by simpa using hd)]
        simp [alookup_upsert, hd]
      · rw [List.find?_cons_of_neg _ (by simpa using hd)]
        simp [alookup_upsert, hd]

theorem alookup_globalStatsOf (data : List (Date × SessStats)) (d : Date) :
    alookup (globalStatsOf data) d =
      match data.reverse.find? (fun p => decide (p.1 = d)) with
      | some p => some p.2
      | none => none := by
  rw [globalStatsOf, globalStatsFold_alookup]
  cases data.reverse.find? (fun p => decide (p.1 = d)) <;> simp [alookup]

theorem alookup_globalStatsOf_some {data : List (Date × SessStats)}
    {d : Date} {st : SessStats}
    (h : alookup (globalStatsOf data) d = some st) : (d, st) ∈ data := by
  rw [alookup_globalStatsOf] at h
  cases hf : data.reverse.find? (fun p => decide (p.1 = d)) with
  | none => rw [hf] at h; simp at h
  | some q =>
    rw [hf] at h
    have hq1 : q.1 = d := by simpa using List.find?_some hf
    have hq2 : q ∈ data := List.mem_reverse.mp (List.mem_of_find?_eq_some hf)
    have hst : q.2 = st := Option.some.inj h
    have hq : q = (d, st) := by
      obtain ⟨qa, qb⟩ := q
      simp only at hq1 hst
      rw [hq1, hst]
    exact hq ▸ hq2

theorem alookup_globalStatsOf_none {data : List (Date × SessStats)}
    {d : Date} :
    alookup (globalStatsOf data) d = none ↔ ¬d ∈ data.map Prod.fst := by
  rw [alookup_globalStatsOf]
  cases hf : data.reverse.find? (fun p => decide (p.1 = d)) with
  | some q =>
    simp only []
    constructor
    · intro h
      exact absurd h (by simp)
    · intro h
      exfalso
      have hq1 : q.1 = d := by simpa using List.find?_some hf
      have hq2 : q ∈ data :=
        List.mem_reverse.mp (List.mem_of_find?_eq_some hf)
      exact h (List.mem_map.mpr ⟨q, hq2, hq1⟩)
  | none =>
    simp only []
    constructor
    · intro _ hmem
      obtain ⟨q, hq, hq1⟩ := List.mem_map.mp hmem
      have := List.find?_eq_none.mp hf q (List.mem_reverse.mpr hq)
      simp [hq1] at this
    · intro _
      trivial

theorem alookup_globalStatsOf_of_nodup {data : List (Date × SessStats)}
    (hnd : (data.map Prod.fst).Nodup) {d : Date} {st : SessStats}
    (hmem : (d, st) ∈ data) :
    alookup (globalStatsOf data) d = some st := by
  cases h : alookup (globalStatsOf data) d with
  | none =>
    rw [alookup_globalStatsOf_none] at h
    exact absurd (List.mem_map.mpr ⟨(d, st), hmem, rfl⟩) h
  | some st2 =>
    have e1 := mem_alookup_of_keysNodup hnd hmem
    have e2 := mem_alookup_of_keysNodup hnd (alookup_globalStatsOf_some h)
    rw [e1] at e2
    rw [Option.some.inj e2]

/-! ## Per-session output rows -/

theorem product_eq_sprod {α β : Type} (l1 : List α) (l2 : List β) :
    l1.product l2 = l1 ×ˢ l2 := rfl

theorem mem_count_usage_per_session {data : List (Date × SessStats)}
    {s : Speaker} {d : Date} {c : Option Nat} :
    (s, d, c) ∈ count_usage_per_session data ↔
      s ∈ speakersOf data ∧ d ∈ datesOf data ∧
        c = (alookup (globalStatsOf data) d).bind
          (fun st => alookup st s) := by
  unfold count_usage_per_session
  constructor
  · intro h
    obtain ⟨sd, hsd, heq⟩ := List.mem_map.mp h
    obtain ⟨s2, d2⟩ := sd
    rw [product_eq_sprod] at hsd
    obtain ⟨hs, hd⟩ := List.mem_product.mp hsd
    have hs2 : s2 = s := congrArg Prod.fst heq
    have hd2 : d2 = d := congrArg (fun r => r.2.1) heq
    have hc : (alookup (globalStatsOf data) d2).bind
        (fun st => alookup st s2) = c := congrArg (fun r => r.2.2) heq
    subst hs2
    subst hd2
    exact ⟨hs, hd, hc.symm⟩
  · rintro ⟨hs, hd, hc⟩
    refine List.mem_map.mpr ⟨(s, d), ?_, ?_⟩
    · rw [product_eq_sprod]
      exact List.mem_product.mpr ⟨hs, hd⟩
    · rw [hc]

theorem count_usage_per_session_nodup (data : List (Date × SessStats)) :
    (count_usage_per_session data).Nodup := by
  unfold count_usage_per_session
  apply List.Nodup.map
  · intro a b hab
    obtain ⟨a1, a2⟩ := a
    obtain ⟨b1, b2⟩ := b
    simp only [Prod.mk.injEq] at hab
    simp [hab.1, hab.2.1]
  · rw [product_eq_sprod]
    exact (speakersOf_nodup data).product (datesOf_nodup data)

/-- Claim C1: per-session aggregation iterates the Cartesian product of
the speaker set and the date set, emitting exactly one row per
(speaker, date) pair — the output length is `|speakers| * |dates|`, a
pair's row is unique, and its count is the lookup in that date's partial
statistics: the stored value when the speaker has an entry there and the
explicit missing marker `none` (not zero) otherwise. -/
theorem per_session_cartesian (data : List (Date × SessStats))
    (hnd : (data.map Prod.fst).Nodup) (s : Speaker) (d : Date)
    (st : SessStats) (hmem : (d, st) ∈ data) :
    (count_usage_per_session data).length =
      (speakersOf data).length * (datesOf data).length ∧
    (∀ c, (s, d, c) ∈ count_usage_per_session data → c = alookup st s) ∧
    rowCount (count_usage_per_session data) (s, d, alookup st s) =
      (if s ∈ speakersOf data then 1 else 0) := by
  have hcnt : ∀ (rows : List SessRow) (r : SessRow),
      rowCount rows r = @List.count SessRow instBEqOfDecidableEq r rows :=
    fun rows r => rfl
  have hgs : alookup (globalStatsOf data) d = some st :=
    alookup_globalStatsOf_of_nodup hnd hmem
  have hd : d ∈ datesOf data :=
    (datesOf_mem data d).mpr (List.mem_map.mpr ⟨(d, st), hmem, rfl⟩)
  refine ⟨?_, ?_, ?_⟩
  · unfold count_usage_per_session
    rw [List.length_map, product_eq_sprod, List.length_product]
  · intro c hc
    obtain ⟨-, -, hcv⟩ := mem_count_usage_per_session.mp hc
    rw [hcv, hgs]
    rfl
  · by_cases hs : s ∈ speakersOf data
    · rw [if_pos hs, hcnt]
      apply List.count_eq_one_of_mem (count_usage_per_session_nodup data)
      exact mem_count_usage_per_session.mpr ⟨hs, hd, by rw [hgs]; rfl⟩
    · rw [if_neg hs]
      unfold rowCount
      rw [List.countP_eq_zero]
      intro r hr
      simp only [decide_eq_true_eq]
      intro he
      subst he
      exact hs (mem_count_usage_per_session.mp hr).1

/-- Witness for C1 on the two-file corpus `dataC1`: exactly the four rows
of the spec's example, with the never-observed pairs carrying the missing
marker, and the (S1, D2) row occurring exactly once. -/
theorem per_session_cartesian_witness :
    count_usage_per_session dataC1 =
      [(some (strL "S1"), (1, 1, 1), some 5),
       (some (strL "S1"), (2, 2, 2), none),
       (some (strL "S2"), (1, 1, 1), none),
       (some (strL "S2"), (2, 2, 2), some 7)] ∧
    rowCount (count_usage_per_session dataC1)
      (some (strL "S1"), (2, 2, 2),
        alookup [(some (strL "S2"), 7)] (some (strL "S1"))) = 1 := by
  refine ⟨by decide, ?_⟩
  have h := (per_session_cartesian dataC1 (by decide) (some (strL "S1"))
    (2, 2, 2) [(some (strL "S2"), 7)] (by decide)).2.2
  rw [h]
  decide

/-- Claim C9: with two files mapping to the same session date, the
aggregator's `global_stats[date] = stats` loop keeps only the statistics
of the file appearing later in the result list: the date's lookup yields
the later entry, every output row for that date is computed from it, and
the earlier file's mapping is silently discarded. -/
theorem duplicate_date_last_wins (xs post : List (Date × SessStats))
    (d : Date) (st1 st2 : SessStats) (_hearlier : (d, st1) ∈ xs)
    (hpost : ¬d ∈ post.map Prod.fst) :
    alookup (globalStatsOf (xs ++ (d, st2) :: post)) d = some st2 ∧
    ∀ s c,
      (s, d, c) ∈ count_usage_per_session (xs ++ (d, st2) :: post) →
        c = alookup st2 s := by
  have hlast :
      alookup (globalStatsOf (xs ++ (d, st2) :: post)) d = some st2 := by
    rw [alookup_globalStatsOf, List.reverse_append, List.reverse_cons,
      find?_append_formula, find?_append_formula]
    have hnone : post.reverse.find? (fun p => decide (p.1 = d)) = none := by
      rw [List.find?_eq_none]
      intro q hq
      simp only [decide_eq_true_eq]
      intro he
      exact hpost (List.mem_map.mpr ⟨q, List.mem_reverse.mp hq, he⟩)
    rw [hnone, List.find?_cons_of_pos _ (by simp)]
  refine ⟨hlast, ?_⟩
  intro s c hc
  obtain ⟨-, -, hcv⟩ := mem_count_usage_per_session.mp hc
  rw [hcv, hlast]
  rfl

/-- Witness for C9: two files with the same date; the aggregated output
contains only the later file's count 7, not the earlier 5. -/
theorem duplicate_date_last_wins_witness :
    alookup (globalStatsOf [((1, 1, 1), [(some (strL "S1"), 5)]),
      ((1, 1, 1), [(some (strL "S1"), 7)])]) (1, 1, 1) =
      some [(some (strL "S1"), 7)] ∧
    count_usage_per_session [((1, 1, 1), [(some (strL "S1"), 5)]),
      ((1, 1, 1), [(some (strL "S1"), 7)])] =
      [(some (strL "S1"), (1, 1, 1), some 7)] :=
  ⟨(duplicate_date_last_wins [((1, 1, 1), [(some (strL "S1"), 5)])] []
      (1, 1, 1) [(some (strL "S1"), 5)] [(some (strL "S1"), 7)]
      (by decide) (by decide)).1,
    by decide⟩

/-- Claim C10: utterance elements without a `who` attribute are not
skipped: both collectors accumulate every such utterance under the single
key `none` (the absent-attribute marker), and that key then flows through
per-session aggregation like an ordinary speaker identifier. -/
theorem missing_who_grouped (forms : List Str) (root : Xml) (date : Date)
    (stats : SessStats) (fstats : FormStats)
    (h : get_usage_statistics forms root = some (date, stats))
    (hf : get_form_statistics forms root = some fstats)
    (hexist : (none : Speaker) ∈ (uElements root).map whoOf) :
    alookup stats none = some (sessTotal forms (uElements root) none) ∧
    (∀ f ∈ forms, ∀ c : Nat,
      (((none : Speaker), date, f), c) ∈ fstats ↔
        (c = formTotal forms (uElements root) none f ∧ 0 < c)) ∧
    (∀ data : List (Date × SessStats), (date, stats) ∈ data →
      (none : Speaker) ∈ speakersOf data ∧
      ∀ d2 ∈ datesOf data, ∃ c,
        ((none : Speaker), d2, c) ∈ count_usage_per_session data) := by
  have hlk : alookup stats none =
      some (sessTotal forms (uElements root) none) := by
    rw [usage_stats_alookup h none, if_pos hexist]
  refine ⟨hlk, ?_, ?_⟩
  · intro f hfm c
    have hdate := usage_stats_date h
    rw [form_stats_mem hdate hf]
    constructor
    · rintro ⟨-, -, -, hcv, hpos⟩
      exact ⟨hcv, hpos⟩
    · rintro ⟨hcv, hpos⟩
      exact ⟨hexist, rfl, hfm, hcv, hpos⟩
  · intro data hdm
    have hkey := alookup_some_mem_keys hlk
    have hsp : (none : Speaker) ∈ speakersOf data :=
      (speakersOf_mem data none).mpr ⟨(date, stats), hdm, hkey⟩
    refine ⟨hsp, ?_⟩
    intro d2 hd2
    exact ⟨_, mem_count_usage_per_session.mpr ⟨hsp, hd2, rfl⟩⟩

/-- Witness for C10 at `sessNoWho` (two `who`-less utterances): they are
grouped under the `none` key with total 2, and `none` enters the speaker
set of the aggregation. -/
theorem missing_who_grouped_witness :
    alookup [((none : Speaker), 2), (some (strL "#A"), 0)] none =
      some (sessTotal wForms (uElements sessNoWho) none) ∧
    (none : Speaker) ∈ speakersOf
      [((2021, 3, 4), [((none : Speaker), 2), (some (strL "#A"), 0)])] := by
  have h := missing_who_grouped wForms sessNoWho (2021, 3, 4)
    [(none, 2), (some (strL "#A"), 0)]
    [(((none : Speaker), ((2021, 3, 4) : Date), strL "voi merge"), 1),
     ((none, (2021, 3, 4), strL "va veni"), 1)]
    (by decide) (by decide) (by decide)
  exact ⟨h.1,
    (h.2.2 [((2021, 3, 4), [(none, 2), (some (strL "#A"), 0)])]
      (by decide)).1⟩

/-- Claim C8: content determinism of the aggregated counts.  The sources
of run-to-run nondeterminism are the enumeration order of the per-file
results and the iteration order of the CPython speaker/date sets; both
are modelled by quantifying over permutations of the per-file result
list.  Under the corpus assumption that dates are unique (one session
per date), two runs produce the same multiset of (Speaker, Date,
UsageCount) rows in per-session mode, and the same multiset of (Speaker,
Date, Form, Count) rows in per-form mode unconditionally; only the
positional synthetic row index can differ. -/
theorem pipeline_rows_deterministic :
    (∀ data1 data2 : List (Date × SessStats), data1.Perm data2 →
      (data1.map Prod.fst).Nodup →
      (count_usage_per_session data1).Perm (count_usage_per_session data2)) ∧
    (∀ fdata1 fdata2 : List FormStats, fdata1.Perm fdata2 →
      (count_usage_per_verb_form fdata1).Perm
        (count_usage_per_verb_form fdata2)) := by
  constructor
  · intro data1 data2 hperm hnd
    have hnd2 : (data2.map Prod.fst).Nodup :=
      ((hperm.map Prod.fst).nodup_iff).mp hnd
    have hsp : (speakersOf data1).Perm (speakersOf data2) := by
      rw [List.perm_ext_iff_of_nodup (speakersOf_nodup data1)
        (speakersOf_nodup data2)]
      intro s
      rw [speakersOf_mem, speakersOf_mem]
      constructor
      · rintro ⟨p, hp, hs⟩
        exact ⟨p, hperm.mem_iff.mp hp, hs⟩
      · rintro ⟨p, hp, hs⟩
        exact ⟨p, hperm.mem_iff.mpr hp, hs⟩
    have hds : (datesOf data1).Perm (datesOf data2) := by
      rw [List.perm_ext_iff_of_nodup (datesOf_nodup data1)
        (datesOf_nodup data2)]
      intro d
      rw [datesOf_mem, datesOf_mem]
      exact (hperm.map Prod.fst).mem_iff
    have hgs : ∀ d, alookup (globalStatsOf data1) d =
        alookup (globalStatsOf data2) d := by
      intro d
      cases h1 : alookup (globalStatsOf data1) d with
      | some st =>
        exact (alookup_globalStatsOf_of_nodup hnd2
          (hperm.mem_iff.mp (alookup_globalStatsOf_some h1))).symm
      | none =>
        rw [alookup_globalStatsOf_none] at h1
        have : ¬d ∈ data2.map Prod.fst := fun hc =>
          h1 ((hperm.map Prod.fst).mem_iff.mpr hc)
        exact (alookup_globalStatsOf_none.mpr this).symm
    unfold count_usage_per_session
    have hprod := hsp.product hds
    refine (hprod.map _).trans ?_
    rw [List.map_inj_left.mpr ?_]
    intro sd _
    rw [hgs sd.2]
  · intro fdata1 fdata2 hperm
    unfold count_usage_per_verb_form
    exact hperm.flatMap_right _

/-- Witness for C8: the two-file inputs `dataC1` and `dataC1rev` differ
only in enumeration order; the output row multisets coincide. -/
theorem pipeline_rows_deterministic_witness :
    (count_usage_per_session dataC1).Perm
      (count_usage_per_session dataC1rev) :=
  pipeline_rows_deterministic.1 dataC1 dataC1rev (by decide) (by decide)

/-- Claim C6 (amended): date extraction fails exactly when the file has
no descendant whose tag contains "date" under a direct parent whose tag
contains "setting", or when the first such element's `when` attribute is
absent or rejected by strptime's `%Y-%m-%d` — which, unlike strict
YYYY-MM-DD, also accepts one-digit months and days; such a failure is
fatal for the file's job, is not caught by the driver, and makes the
whole batch fail with no partial results, in either mode. -/
theorem session_date_failure (root : Xml) (forms : List Str)
    (files : List Xml) :
    ((get_session_date root).isSome ↔
      ∃ pe rest, sessionDateCandidates root = pe :: rest ∧
        ∃ w, (pe.2).getAttr (strL "when") = some w ∧ (parseYMD w).isSome) ∧
    ((∃ f ∈ files, get_usage_statistics forms f = none) →
      runPerSession forms files = none) ∧
    ((∃ f ∈ files, get_form_statistics forms f = none) →
      runPerForm forms files = none) := by
  refine ⟨?_, ?_, ?_⟩
  · unfold get_session_date
    cases hc : sessionDateCandidates root with
    | nil =>
      simp only [Option.isSome_none, Bool.false_eq_true, false_iff]
      rintro ⟨pe, rest, hcons, -⟩
      exact List.cons_ne_nil pe rest hcons.symm
    | cons pe rest =>
      obtain ⟨pt, e⟩ := pe
      dsimp only
      cases ha : e.getAttr (strL "when") with
      | none =>
        simp only [Option.none_bind, Option.isSome_none,
          Bool.false_eq_true, false_iff]
        rintro ⟨⟨p2t, e2⟩, rest2, hcons, w, hw, -⟩
        obtain ⟨h1, -⟩ := List.cons.inj hcons.symm
        have he : e2 = e := congrArg Prod.snd h1
        rw [he, ha] at hw
        exact Option.noConfusion hw
      | some w =>
        simp only [Option.some_bind]
        constructor
        · intro h
          exact ⟨(pt, e), rest, rfl, w, ha, h⟩
        · rintro ⟨⟨p2t, e2⟩, rest2, hcons, w2, hw2, hp2⟩
          obtain ⟨h1, -⟩ := List.cons.inj hcons.symm
          have he : e2 = e := congrArg Prod.snd h1
          rw [he, ha] at hw2
          rw [← Option.some.inj hw2] at hp2
          exact hp2
  · intro h
    obtain ⟨f, hf, hnone⟩ := h
    unfold runPerSession
    rw [optMapM_eq_none ⟨f, hf, hnone⟩]
    rfl
  · intro h
    obtain ⟨f, hf, hnone⟩ := h
    unfold runPerForm
    rw [optMapM_eq_none ⟨f, hf, hnone⟩]
    rfl

/-- Witness for C6: a batch containing the well-formed session `sessA`
and the malformed `sessBadDate` (when = "2019-13-40") fails as a whole. -/
theorem session_date_failure_witness :
    runPerSession wForms [sessA, sessBadDate] = none :=
  (session_date_failure sessBadDate wForms [sessA, sessBadDate]).2.1
    ⟨sessBadDate, List.mem_cons_of_mem _ (List.mem_cons_self _ _), by decide⟩

/-- Claim C6 counterexample: the `when` value "2020-1-3" is not a
well-formed YYYY-MM-DD string in the spec's sense (its month and day are
one digit), yet date extraction succeeds on `sessLenient`, so extraction
does not fail exactly on the non-well-formed dates — strptime is more
lenient than the spec's format description. -/
theorem session_date_lenient_counterexample :
    specWellFormedYMD (strL "2020-1-3") = false ∧
    get_session_date sessLenient = some (2020, 1, 3) := by decide

/-! ## Pronoun-stripping: structural lemmas -/

theorem joinNL_nil : joinNL [] = [] := rfl

theorem joinNL_single (l : Str) : joinNL [l] = l := rfl

theorem joinNL_cons2 (l l2 : Str) (ls : List Str) :
    joinNL (l :: l2 :: ls) = l ++ '\n' :: joinNL (l2 :: ls) := rfl

theorem splitOnChar_ne_nil (sep : Char) (s : Str) :
    splitOnChar sep s ≠ [] := by
  cases s with
  | nil => simp [splitOnChar]
  | cons c cs =>
    by_cases h : c = sep
    · simp [splitOnChar, h]
    · simp only [splitOnChar, if_neg h]
      cases hs : splitOnChar sep cs <;> simp

theorem joinNL_splitOnChar (s : Str) : joinNL (splitOnChar '\n' s) = s := by
  induction s with
  | nil => rfl
  | cons c cs ih =>
    by_cases h : c = '\n'
    · subst h
      rw [show splitOnChar '\n' ('\n' :: cs) = [] :: splitOnChar '\n' cs
        from by simp [splitOnChar]]
      cases hs : splitOnChar '\n' cs with
      | nil => exact absurd hs (splitOnChar_ne_nil _ _)
      | cons l ls =>
        rw [joinNL_cons2, ← hs, ih]
        rfl
    · rw [show splitOnChar '\n' (c :: cs) =
        (match splitOnChar '\n' cs with
         | [] => [[c]]
         | l :: ls => (c :: l) :: ls)
        from by simp [splitOnChar, h]]
      cases hs : splitOnChar '\n' cs with
      | nil => exact absurd hs (splitOnChar_ne_nil _ _)
      | cons l ls =>
        cases ls with
        | nil =>
          have hl : l = cs := by
            rw [hs] at ih
            simpa [joinNL_single] using ih
          simp [joinNL_single, hl]
        | cons l2 ls2 =>
          rw [show (match (l :: l2 :: ls2 : List Str) with
            | [] => [[c]]
            | l :: ls => (c :: l) :: ls) = (c :: l) :: l2 :: ls2 from rfl]
          rw [joinNL_cons2]
          rw [hs, joinNL_cons2] at ih
          rw [List.cons_append, ih]

theorem pySubAux_nil (k : Nat) (b : Bool) : pySubAux [] k b = [] := rfl

theorem pySubAux_succ (c : Char) (cs : Str) (k : Nat) (b : Bool) :
    pySubAux (c :: cs) (k + 1) b = pySubAux cs k b := rfl

theorem pySubAux_cons_true (c : Char) (cs : Str) :
    pySubAux (c :: cs) 0 true =
      match tryPronMatch (c :: cs) with
      | some (m, b2) => pySubAux cs (m - 1) b2
      | none => c :: pySubAux cs 0 (c == '\n') := rfl

theorem pySubAux_cons_false (c : Char) (cs : Str) :
    pySubAux (c :: cs) 0 false = c :: pySubAux cs 0 (c == '\n') := rfl

theorem pySubAux_skip (cs : Str) (k : Nat) (b : Bool) :
    pySubAux cs k b = pySubAux (cs.drop k) 0 b := by
  induction cs generalizing k with
  | nil => simp [pySubAux_nil]
  | cons c cs ih =>
    cases k with
    | zero => rfl
    | succ k => rw [pySubAux_succ, ih, List.drop_succ_cons]

theorem pySubAux_false_no_nl {M : Str} (h : '\n' ∉ M) :
    pySubAux M 0 false = M := by
  induction M with
  | nil => rfl
  | cons c cs ih =>
    have hc : ¬c = '\n' := fun he => h (he ▸ List.mem_cons_self c cs)
    rw [pySubAux_cons_false,
      show (c == '\n') = false from by simpa using hc,
      ih (fun hm => h (List.mem_cons_of_mem c hm))]

theorem pySubAux_false_append {M : Str} (h : '\n' ∉ M) (r : Str) :
    pySubAux (M ++ '\n' :: r) 0 false = M ++ '\n' :: pySubAux r 0 true := by
  induction M with
  | nil =>
    rw [List.nil_append, pySubAux_cons_false]
    rfl
  | cons c cs ih =>
    have hc : ¬c = '\n' := fun he => h (he ▸ List.mem_cons_self c cs)
    rw [List.cons_append, pySubAux_cons_false,
      show (c == '\n') = false from by simpa using hc,
      ih (fun hm => h (List.mem_cons_of_mem c hm))]
    rfl

theorem matchPronList_le {ps : List Str} {L : Str} {k : Nat}
    (h : matchPronList ps L = some k) : k ≤ L.length := by
  induction ps with
  | nil => simp [matchPronList] at h
  | cons p ps ih =>
    rw [matchPronList] at h
    by_cases hc : (L.take p.length).map charLower = p
    · rw [if_pos hc] at h
      have hk : k = p.length := (Option.some.inj h).symm
      subst hk
      have := congrArg List.length hc
      simp only [List.length_map, List.length_take] at this
      omega
    · rw [if_neg hc] at h
      exact ih h

theorem matchPronList_append {ps : List Str} (hps : ∀ p ∈ ps, '\n' ∉ p)
    (L r : Str) (hr : r = [] ∨ ∃ t, r = '\n' :: t) :
    matchPronList ps (L ++ r) = matchPronList ps L := by
  induction ps with
  | nil => rfl
  | cons p ps ih =>
    have hcond : (((L ++ r).take p.length).map charLower = p) ↔
        ((L.take p.length).map charLower = p) := by
      by_cases hlen : p.length ≤ L.length
      · rw [List.take_append_eq_append_take, Nat.sub_eq_zero_of_le hlen,
          List.take_zero, List.append_nil]
      · constructor
        · intro hc
          exfalso
          rcases hr with hr | ⟨t, hr⟩
          · subst hr
            rw [List.append_nil] at hc
            have := congrArg List.length hc
            simp only [List.length_map, List.length_take] at this
            omega
          · subst hr
            rw [List.take_append_eq_append_take,
              List.take_of_length_le (by omega : L.length ≤ p.length)] at hc
            obtain ⟨m, hm⟩ : ∃ m, p.length - L.length = m + 1 :=
              ⟨p.length - L.length - 1, by omega⟩
            rw [hm, List.take_succ_cons] at hc
            have hmem : '\n' ∈ p := by
              rw [← hc, List.map_append, List.map_cons,
                show charLower '\n' = '\n' from rfl]
              exact List.mem_append.mpr (Or.inr (List.mem_cons_self _ _))
            exact hps p (List.mem_cons_self p ps) hmem
        · intro hc
          exfalso
          have := congrArg List.length hc
          simp only [List.length_map, List.length_take] at this
          omega
    rw [matchPronList, matchPronList]
    by_cases hc : (L.take p.length).map charLower = p
    · rw [if_pos hc, if_pos (hcond.mpr hc)]
    · rw [if_neg hc, if_neg (fun h2 => hc (hcond.mp h2))]
      exact ih (fun q hq => hps q (List.mem_cons_of_mem p hq))

theorem matchPron_append (L r : Str) (hr : r = [] ∨ ∃ t, r = '\n' :: t) :
    matchPron (L ++ r) = matchPron L :=
  matchPronList_append (by decide) L r hr

theorem matchPron_le {L : Str} {k : Nat} (h : matchPron L = some k) :
    k ≤ L.length :=
  matchPronList_le h

theorem goodLineB_parts {L : Str} (h : goodLineB L = true) :
    L ≠ [] ∧ (∀ c, L.head? = some c → isPySpace c = false) ∧ '\n' ∉ L ∧
    ∀ k, matchPron L = some k →
      ∃ c2 rest, L.drop k = c2 :: rest ∧ isPySpace c2 = true ∧
        ∀ c3, rest.head? = some c3 → isPySpace c3 = false := by
  cases L with
  | nil => simp [goodLineB] at h
  | cons c L2 =>
    simp only [goodLineB, Bool.and_eq_true] at h
    obtain ⟨⟨h1, h2⟩, h3⟩ := h
    refine ⟨List.cons_ne_nil c L2, ?_, ?_, ?_⟩
    · intro c2 hc2
      have hcc : c2 = c := by simpa using hc2.symm
      subst hcc
      simpa using h1
    · simpa using h2
    · intro k hk
      simp only [hk] at h3
      cases hd : (c :: L2).drop k with
      | nil =>
        simp only [hd] at h3
        exact absurd h3 Bool.false_ne_true
      | cons c2 rest =>
        simp only [hd, Bool.and_eq_true] at h3
        obtain ⟨h4, h5⟩ := h3
        refine ⟨c2, rest, rfl, h4, ?_⟩
        intro c3 hc3
        cases hr : rest with
        | nil => rw [hr] at hc3; simp at hc3
        | cons c4 t =>
          rw [hr] at h5 hc3
          have hcc : c3 = c4 := by simpa using hc3.symm
          subst hcc
          simpa using h5

theorem tryPronMatch_eq_of_head_not_space {c : Char} {cs : Str}
    (hc : isPySpace c = false) :
    tryPronMatch (c :: cs) =
      match matchPron (c :: cs) with
      | none => none
      | some k =>
        match ((c :: cs).drop k).head? with
        | some c2 => if isPySpace c2 then some (k + 1, c2 == '\n') else none
        | none => none := by
  simp only [tryPronMatch]
  rw [show (c :: cs).takeWhile isPySpace = [] from by
    simp [List.takeWhile_cons, hc]]
  simp

theorem tryPronMatch_none {L r : Str} (hne : L ≠ [])
    (hhead : ∀ c, L.head? = some c → isPySpace c = false)
    (hm : matchPron L = none) (hr : r = [] ∨ ∃ t, r = '\n' :: t) :
    tryPronMatch (L ++ r) = none := by
  obtain ⟨c, L2, rfl⟩ : ∃ c L2, L = c :: L2 := by
    cases L with
    | nil => exact absurd rfl hne
    | cons c L2 => exact ⟨c, L2, rfl⟩
  rw [List.cons_append, tryPronMatch_eq_of_head_not_space (hhead c rfl),
    ← List.cons_append, matchPron_append _ _ hr, hm]

theorem tryPronMatch_some {L r : Str} {k : Nat} {c2 : Char} {rest : Str}
    (hne : L ≠ [])
    (hhead : ∀ c, L.head? = some c → isPySpace c = false)
    (hnl : '\n' ∉ L) (hm : matchPron L = some k)
    (hdrop : L.drop k = c2 :: rest) (hws : isPySpace c2 = true)
    (hr : r = [] ∨ ∃ t, r = '\n' :: t) :
    tryPronMatch (L ++ r) = some (k + 1, false) := by
  obtain ⟨c, L2, rfl⟩ : ∃ c L2, L = c :: L2 := by
    cases L with
    | nil => exact absurd rfl hne
    | cons c L2 => exact ⟨c, L2, rfl⟩
  rw [List.cons_append, tryPronMatch_eq_of_head_not_space (hhead c rfl),
    ← List.cons_append, matchPron_append _ _ hr]
  simp only [hm]
  have hk : k ≤ (c :: L2).length := matchPron_le hm
  have hdrop2 : ((c :: L2) ++ r).drop k = c2 :: (rest ++ r) := by
    rw [List.drop_append_eq_append_drop, Nat.sub_eq_zero_of_le hk,
      List.drop_zero, hdrop, List.cons_append]
  rw [hdrop2]
  simp only [List.head?_cons]
  rw [if_pos hws]
  have hmem : c2 ∈ c :: L2 := by
    have hmem2 : c2 ∈ (c :: L2).drop k := by
      rw [hdrop]
      exact List.mem_cons_self _ _
    exact List.drop_subset _ _ hmem2
  have hc2 : (c2 == '\n') = false := by
    have hne2 : ¬c2 = '\n' := fun he => hnl (he ▸ hmem)
    simpa using hne2
  rw [hc2]

theorem pySubAux_false_no_nl_append {M : Str} (h : '\n' ∉ M) (r : Str) :
    pySubAux (M ++ r) 0 false = M ++ pySubAux r 0 false := by
  induction M with
  | nil => rfl
  | cons c cs ih =>
    have hc : ¬c = '\n' := fun he => h (he ▸ List.mem_cons_self c cs)
    rw [List.cons_append, pySubAux_cons_false,
      show (c == '\n') = false from by simpa using hc,
      ih (fun hm => h (List.mem_cons_of_mem c hm)), List.cons_append]

theorem dropWhile_eq_self_of_head {l : Str}
    (h : ∀ c, l.head? = some c → isPySpace c = false) :
    l.dropWhile isPySpace = l := by
  cases l with
  | nil => rfl
  | cons c t =>
    rw [List.dropWhile_cons, h c rfl]
    simp

theorem specLineRemoval_none {L : Str} (hm : matchPron L = none) :
    specLineRemoval L = L := by
  simp only [specLineRemoval, hm]

theorem specLineRemoval_some {L : Str} {k : Nat} {c2 : Char} {rest : Str}
    (hm : matchPron L = some k) (hdrop : L.drop k = c2 :: rest)
    (hws : isPySpace c2 = true)
    (hrest : ∀ c3, rest.head? = some c3 → isPySpace c3 = false) :
    specLineRemoval L = rest := by
  simp only [specLineRemoval, hm, hdrop, List.head?_cons, hws, if_true]
  rw [List.dropWhile_cons, hws]
  simp only [if_true]
  exact dropWhile_eq_self_of_head hrest

theorem pySub_line {L : Str} (hg : goodLineB L = true) (r : Str)
    (hr : r = [] ∨ ∃ t, r = '\n' :: t) :
    pySubAux (L ++ r) 0 true = specLineRemoval L ++ pySubAux r 0 false := by
  obtain ⟨hne, hhead, hnl, hmatch⟩ := goodLineB_parts hg
  obtain ⟨c, L2, rfl⟩ : ∃ c L2, L = c :: L2 := by
    cases L with
    | nil => exact absurd rfl hne
    | cons c L2 => exact ⟨c, L2, rfl⟩
  have hnl2 : '\n' ∉ L2 := fun hm2 => hnl (List.mem_cons_of_mem c hm2)
  have hcnl : (c == '\n') = false := by
    have : ¬c = '\n' := fun he => hnl (he ▸ List.mem_cons_self c L2)
    simpa using this
  cases hm : matchPron (c :: L2) with
  | none =>
    rw [List.cons_append, pySubAux_cons_true,
      show tryPronMatch (c :: (L2 ++ r)) = none from by
        rw [← List.cons_append]
        exact tryPronMatch_none hne hhead hm hr,
      hcnl, pySubAux_false_no_nl_append hnl2 r,
      specLineRemoval_none hm, List.cons_append]
  | some k =>
    obtain ⟨c2, rest, hdrop, hws, hrest⟩ := hmatch k hm
    rw [List.cons_append, pySubAux_cons_true,
      show tryPronMatch (c :: (L2 ++ r)) = some (k + 1, false) from by
        rw [← List.cons_append]
        exact tryPronMatch_some hne hhead hnl hm hdrop hws hr]
    show pySubAux (L2 ++ r) k false =
      specLineRemoval (c :: L2) ++ pySubAux r 0 false
    rw [pySubAux_skip]
    have hklt : k ≤ L2.length := by
      have hlen := congrArg List.length hdrop
      simp only [List.length_drop, List.length_cons] at hlen
      omega
    have hdropL2 : L2.drop k = rest := by
      have hdd : ((c :: L2).drop k).drop 1 = (c :: L2).drop (k + 1) :=
        List.drop_drop 1 k _
      have hdd2 : (c :: L2).drop (k + 1) = L2.drop k := List.drop_succ_cons ..
      rw [hdrop, hdd2] at hdd
      simpa using hdd.symm
    have hdropr : (L2 ++ r).drop k = rest ++ r := by
      rw [List.drop_append_eq_append_drop, Nat.sub_eq_zero_of_le hklt,
        List.drop_zero, hdropL2]
    have hnlrest : '\n' ∉ rest := by
      intro hmem
      apply hnl
      have : '\n' ∈ (c :: L2).drop k := by
        rw [hdrop]
        exact List.mem_cons_of_mem c2 hmem
      exact List.drop_subset _ _ this
    rw [hdropr, pySubAux_false_no_nl_append hnlrest r,
      specLineRemoval_some hm hdrop hws hrest]

theorem pySub_joinNL {ls : List Str}
    (hg : ∀ L ∈ ls, goodLineB L = true) :
    pySubAux (joinNL ls) 0 true = joinNL (ls.map specLineRemoval) := by
  induction ls with
  | nil => rfl
  | cons L ls ih =>
    cases ls with
    | nil =>
      rw [joinNL_single, List.map_cons, List.map_nil, joinNL_single]
      have h := pySub_line (hg L (List.mem_cons_self _ _)) [] (Or.inl rfl)
      rw [List.append_nil] at h
      rw [h, pySubAux_nil, List.append_nil]
    | cons L2 ls2 =>
      rw [joinNL_cons2,
        pySub_line (hg L (List.mem_cons_self _ _))
          ('\n' :: joinNL (L2 :: ls2)) (Or.inr ⟨_, rfl⟩),
        pySubAux_cons_false, show ('\n' == '\n') = true from rfl,
        ih (fun L3 h3 => hg L3 (List.mem_cons_of_mem _ h3))]
      simp only [List.map_cons, joinNL_cons2]

/-- Claim C5 counterexample: the cell "tu x\neu\nvoi y" contains
pronoun-prefixed lines, but the regex also consumes the newline after the
line consisting of the bare pronoun "eu" (its `\s` matches the line
terminator), so the code produces "x\ny" while per-line manual removal —
which leaves the "eu" line alone, as no whitespace follows the marker
within the line — produces "x\neu\ny". -/
theorem future_forms_manual_counterexample :
    cleanFutureCell (strL "tu x\neu\nvoi y") = strL "x\ny" ∧
    specCellRemoval (strL "tu x\neu\nvoi y") = strL "x\neu\ny" ∧
    get_future_forms [strL "tu x\neu\nvoi y"] ≠
      [specCellRemoval (strL "tu x\neu\nvoi y")] := by decide

/-- Claim C5 (amended): `get_future_forms` returns one cleaned form per
input row with row order preserved; and on every cell whose lines are
nonempty, free of leading whitespace, and in which any leading pronoun
marker is followed by exactly one whitespace character and then either
the line end or a non-whitespace character, the result coincides with
manually removing the leading pronoun token and its following whitespace
from every line and trimming the cell.  (In general the regex may also
consume whitespace before the marker, consumes only one whitespace
character after it, and can swallow the line-terminating newline when
the marker ends its line.) -/
theorem future_forms_stripping (cells : List Str)
    (hgood : ∀ cell ∈ cells, ∀ L ∈ splitOnChar '\n' cell,
      goodLineB L = true) :
    (get_future_forms cells).length = cells.length ∧
    get_future_forms cells = cells.map specCellRemoval := by
  refine ⟨by simp [get_future_forms], ?_⟩
  unfold get_future_forms
  rw [List.map_inj_left.mpr ?_]
  intro cell hc
  have hcell := hgood cell hc
  unfold cleanFutureCell specCellRemoval pySub
  congr 1
  conv_lhs => rw [← joinNL_splitOnChar cell]
  exact pySub_joinNL hcell

/-- Witness for the amended C5: a two-row pronoun-prefixed cell, whose
stripped result matches per-line manual removal. -/
theorem future_forms_stripping_witness :
    get_future_forms [strL "eu voi merge\ntu vei merge"] =
      [strL "eu voi merge\ntu vei merge"].map specCellRemoval ∧
    specCellRemoval (strL "eu voi merge\ntu vei merge") =
      strL "voi merge\nvei merge" :=
  ⟨(future_forms_stripping [strL "eu voi merge\ntu vei merge"]
      (by decide)).2,
    by decide⟩
